import Mathlib

/-!
Verification of the IPS simulation engine: the seeded PRNG (xoshiro128-style
generator with SplitMix32-style seeding), the confinement / interaction
potential library, and the Euler-Maruyama particle-system integrator.

Source files embedded here: src/sim/potentials.ts and src/sim/euler-maruyama.ts.
JavaScript 32-bit integer operations are modelled over ℕ with explicit `% 2^32`;
floating-point arithmetic is modelled over ℝ.
-/

namespace IPS

open Finset

/-! ### PRNG (class PRNG, src/sim/potentials.ts lines 290-338) -/

/-- The modulus 2^32 of all JavaScript 32-bit integer operations. -/
def M32 : ℕ := 4294967296

/-- The four 32-bit words of the xoshiro128-style generator state
(`private s: Uint32Array` of length 4). -/
structure Xs128 where
  s0 : ℕ
  s1 : ℕ
  s2 : ℕ
  s3 : ℕ

/-- One round of the SplitMix32-style mixing in the PRNG constructor:
`t = seed ^ (seed >>> 16); t = imul(t, 0x21f0aaad); t ^= t >>> 15;
t = imul(t, 0x735a2d97); t ^= t >>> 15`.  The input is reduced mod 2^32
exactly as the JavaScript `>>>`/`^`/`imul` coercions do. -/
def mix32 (z : ℤ) : ℕ :=
  let x : ℕ := (z % (M32 : ℤ)).toNat
  let t1 := x ^^^ (x >>> 16)
  let t2 := (t1 * 0x21f0aaad) % M32
  let t3 := t2 ^^^ (t2 >>> 15)
  let t4 := (t3 * 0x735a2d97) % M32
  t4 ^^^ (t4 >>> 15)

/-- The additive constant `0x9e3779b9` of the seeding loop. -/
def gamma32 : ℤ := 0x9e3779b9

/-- The PRNG constructor: the loop `for i in 0..3 { seed += 0x9e3779b9; s[i] = mix(seed) }`. -/
def prngInit (seed : ℤ) : Xs128 :=
  ⟨mix32 (seed + gamma32), mix32 (seed + 2 * gamma32),
   mix32 (seed + 3 * gamma32), mix32 (seed + 4 * gamma32)⟩

/-- The output word of `next()`: `Math.imul(s[1] * 5, 7) >>> 0`. -/
def nextOut (s : Xs128) : ℕ := ((s.s1 * 5) % M32 * 7) % M32

/-- The state transition of `next()`:
`t = s1 << 9; s2 ^= s0; s3 ^= s1; s1 ^= s2; s0 ^= s3; s2 ^= t;
s3 = (s3 << 11) | (s3 >>> 21)`. -/
def nextState (s : Xs128) : Xs128 :=
  let t := (s.s1 * 2 ^ 9) % M32
  let c1 := s.s2 ^^^ s.s0
  let d1 := s.s3 ^^^ s.s1
  let b1 := s.s1 ^^^ c1
  let a1 := s.s0 ^^^ d1
  let c2 := c1 ^^^ t
  let d2 := ((d1 * 2 ^ 11) % M32) ||| (d1 >>> 21)
  ⟨a1, b1, c2, d2⟩

/-- Method random(): the uniform value `result / 4294967296` together with the advanced state. -/
noncomputable def randomPair (s : Xs128) : ℝ × Xs128 :=
  ((nextOut s : ℝ) / 4294967296, nextState s)

/-- Method randn(): Box-Muller from two uniform draws,
`sqrt(-2 * log(u1 + 1e-30)) * cos(2 * PI * u2)`. -/
noncomputable def randn (s : Xs128) : ℝ × Xs128 :=
  let u1 := (randomPair s).1
  let s1 := (randomPair s).2
  let u2 := (randomPair s1).1
  let s2 := (randomPair s1).2
  (Real.sqrt (-2 * Real.log (u1 + 1e-30)) * Real.cos (2 * Real.pi * u2), s2)

/-- Method randnArray(arr) for a buffer of length `n`: element `k` is the k-th successive
`randn()` draw; returns the filled buffer (as a function) and the final state. -/
noncomputable def randnFill : ℕ → Xs128 → (ℕ → ℝ) × Xs128
  | 0, s => (fun _ => 0, s)
  | n + 1, s =>
    let p := randn s
    let rest := randnFill n p.2
    (fun k => if k = 0 then p.1 else rest.1 (k - 1), rest.2)

/-- All four state words are zero (the stalling state of a xoshiro generator). -/
def allZero (s : Xs128) : Prop := s.s0 = 0 ∧ s.s1 = 0 ∧ s.s2 = 0 ∧ s.s3 = 0

/-- All four state words are genuine 32-bit values. -/
def wordsBounded (s : Xs128) : Prop := s.s0 < M32 ∧ s.s1 < M32 ∧ s.s2 < M32 ∧ s.s3 < M32

/-! ### Potential library (src/sim/potentials.ts) -/

/-- Interface `ConfinementPotential`: `evaluate(x)` and `gradient(x, out)` over d-vectors. -/
structure ConfinementPotential (d : ℕ) where
  evaluate : (Fin d → ℝ) → ℝ
  gradient : (Fin d → ℝ) → Fin d → ℝ

/-- Interface `RadialInteraction`: `evaluate(r)` and `gradient(r)` over scalar distances. -/
structure RadialInteraction where
  evaluate : ℝ → ℝ
  gradient : ℝ → ℝ

/-- Interface `VectorInteraction`: `evaluate(z)` and `gradient(z, out)` over displacement vectors. -/
structure VectorInteraction (d : ℕ) where
  evaluate : (Fin d → ℝ) → ℝ
  gradient : (Fin d → ℝ) → Fin d → ℝ

/-- The union type InteractionPotential = RadialInteraction | VectorInteraction, discriminated
by the `radial` flag. -/
inductive InteractionPotential (d : ℕ) where
  | radial (phi : RadialInteraction)
  | vector (phi : VectorInteraction d)

/-- The class HarmonicPotential: V(x) = 0.5 k |x|^2, gradient k x. -/
noncomputable def HarmonicPotential (d : ℕ) (k : ℝ) : ConfinementPotential d where
  evaluate x := 0.5 * k * ∑ i, x i * x i
  gradient x := fun i => k * x i

/-- The class QuadraticConfinement: V(x) = 0.5 alpha1 |x| + alpha2 |x|^2, with the
norm floor-clamped to 1e-10 in the gradient. -/
noncomputable def QuadraticConfinement (d : ℕ) (alpha1 alpha2 : ℝ) : ConfinementPotential d where
  evaluate x := 0.5 * alpha1 * Real.sqrt (∑ i, x i * x i) + alpha2 * ∑ i, x i * x i
  gradient x := fun i =>
    0.5 * alpha1 / max (Real.sqrt (∑ j, x j * x j)) 1e-10 * x i + 2.0 * alpha2 * x i

/-- The class DoubleWellPotential: V(x) = 0.25 (|x|^2 - 1)^2, gradient (|x|^2 - 1) x. -/
noncomputable def DoubleWellPotential (d : ℕ) : ConfinementPotential d where
  evaluate x := 0.25 * ((∑ i, x i * x i) - 1.0) ^ 2
  gradient x := fun i => ((∑ j, x j * x j) - 1.0) * x i

/-- The class AnisotropicConfinement: V(x) = sum_k a_k x_k^2, gradient 2 a_k x_k. -/
noncomputable def AnisotropicConfinement (d : ℕ) (a : Fin d → ℝ) : ConfinementPotential d where
  evaluate x := ∑ i, a i * (x i * x i)
  gradient x := fun i => 2.0 * a i * x i

/-- The class GaussianInteraction: Phi(r) = A exp(-r^2 / (2 sigma^2)). -/
noncomputable def GaussianInteraction (A sigma : ℝ) : RadialInteraction where
  evaluate r := A * Real.exp (-r * r / (2 * (sigma * sigma)))
  gradient r := -A * r / (sigma * sigma) * Real.exp (-r * r / (2 * (sigma * sigma)))

/-- The private `smoothInd` helper of `PiecewiseInteraction`:
0.5 (tanh((r-lo)/eps) - tanh((r-hi)/eps)). -/
noncomputable def smoothInd (eps r lo hi : ℝ) : ℝ :=
  0.5 * (Real.tanh ((r - lo) / eps) - Real.tanh ((r - hi) / eps))

/-- The private `smoothIndGrad` helper of `PiecewiseInteraction`:
0.5/eps (sech^2((r-lo)/eps) - sech^2((r-hi)/eps)). -/
noncomputable def smoothIndGrad (eps r lo hi : ℝ) : ℝ :=
  0.5 / eps * (1.0 / Real.cosh ((r - lo) / eps) ^ 2 - 1.0 / Real.cosh ((r - hi) / eps) ^ 2)

/-- The class PiecewiseInteraction: beta1 I_{[0.5,1]}(r) + beta2 I_{[1,2]}(r), smoothed. -/
noncomputable def PiecewiseInteraction (beta1 beta2 eps : ℝ) : RadialInteraction where
  evaluate r := beta1 * smoothInd eps r 0.5 1.0 + beta2 * smoothInd eps r 1.0 2.0
  gradient r := beta1 * smoothIndGrad eps r 0.5 1.0 + beta2 * smoothIndGrad eps r 1.0 2.0

/-- The class InverseInteraction: Phi(r) = gamma / (r + 1). -/
noncomputable def InverseInteraction (gamma : ℝ) : RadialInteraction where
  evaluate r := gamma / (r + 1.0)
  gradient r := -gamma / ((r + 1.0) * (r + 1.0))

/-- The class MorsePotential: Phi(r) = D (1 - exp(-a (r - r0)))^2. -/
noncomputable def MorsePotential (D a r0 : ℝ) : RadialInteraction where
  evaluate r := D * (1 - Real.exp (-a * (r - r0))) ^ 2
  gradient r := 2 * D * a * (1 - Real.exp (-a * (r - r0))) * Real.exp (-a * (r - r0))

/-- The `rSafe` field of `LennardJonesPotential`: `rSafeFactor * sigmaLJ`. -/
noncomputable def ljRSafe (sigmaLJ rSafeFactor : ℝ) : ℝ := rSafeFactor * sigmaLJ

/-- The `shift` field of `LennardJonesPotential`: `4 epsilon (sr6Cut^2 - sr6Cut)`
with `sr6Cut = (sigmaLJ / rCut)^6`. -/
noncomputable def ljShift (epsilon sigmaLJ rCut : ℝ) : ℝ :=
  4.0 * epsilon * (((sigmaLJ / rCut) ^ 6) ^ 2 - (sigmaLJ / rCut) ^ 6)

/-- The class LennardJonesPotential: truncated and shifted Lennard-Jones; zero at and
beyond `rCut`, divisor distance clamped below by `rSafe`. -/
noncomputable def LennardJonesPotential (epsilon sigmaLJ rCut rSafeFactor : ℝ) :
    RadialInteraction where
  evaluate r :=
    if rCut ≤ r then 0
    else
      4.0 * epsilon *
          ((sigmaLJ / max r (ljRSafe sigmaLJ rSafeFactor)) ^ 6 *
              (sigmaLJ / max r (ljRSafe sigmaLJ rSafeFactor)) ^ 6 -
            (sigmaLJ / max r (ljRSafe sigmaLJ rSafeFactor)) ^ 6) -
        ljShift epsilon sigmaLJ rCut
  gradient r :=
    if rCut ≤ r then 0
    else
      4.0 * epsilon / max r (ljRSafe sigmaLJ rSafeFactor) *
        (-12.0 * ((sigmaLJ / max r (ljRSafe sigmaLJ rSafeFactor)) ^ 6 *
            (sigmaLJ / max r (ljRSafe sigmaLJ rSafeFactor)) ^ 6) +
          6.0 * (sigmaLJ / max r (ljRSafe sigmaLJ rSafeFactor)) ^ 6)

/-- Method evaluate of class AnisotropicGaussianInteraction:
Phi(z) = A exp(-0.5 sum_i z_i^2 / s_i^2). -/
noncomputable def anisoGaussEval (d : ℕ) (A : ℝ) (s : Fin d → ℝ) (z : Fin d → ℝ) : ℝ :=
  A * Real.exp (-0.5 * ∑ i, z i * z i / (s i * s i))

/-- The class AnisotropicGaussianInteraction: gradient component i is `-phi * z_i / sSq_i`
where `phi = evaluate(z)`. -/
noncomputable def AnisotropicGaussianInteraction (d : ℕ) (A : ℝ) (s : Fin d → ℝ) :
    VectorInteraction d where
  evaluate z := anisoGaussEval d A s z
  gradient z := fun i => -anisoGaussEval d A s z * z i / (s i * s i)

/-! ### Euler-Maruyama integrator (src/sim/euler-maruyama.ts) -/

/-- The body of the radial branch of the interaction loop for one pair (lines 77-87):
displacement `diff = xi - xj`, distance `r = max(sqrt(rSq), 1e-10)`, contribution
`dPhiDr * diff[k] / r`. -/
noncomputable def radialPairForce {d : ℕ} (phi : RadialInteraction) (xi xj : Fin d → ℝ) :
    Fin d → ℝ :=
  fun k =>
    phi.gradient (max (Real.sqrt (∑ m, (xi m - xj m) * (xi m - xj m))) 1e-10) * (xi k - xj k) /
      max (Real.sqrt (∑ m, (xi m - xj m) * (xi m - xj m))) 1e-10

/-- The accumulated `gradPhi` buffer for particle i before the `/= N` averaging:
the sum over all j ≠ i of the pairwise gradient contribution, with the branch on
the `radial` discriminant of Phi. -/
noncomputable def interactionSum {d : ℕ} (Phi : InteractionPotential d) (N : ℕ)
    (pos : Fin N → Fin d → ℝ) (i : Fin N) : Fin d → ℝ :=
  match Phi with
  | .radial phi => fun k => ∑ j ∈ univ.erase i, radialPairForce phi (pos i) (pos j) k
  | .vector phi => fun k => ∑ j ∈ univ.erase i, phi.gradient (fun m => pos i m - pos j m) k

/-- The body of the per-particle loop of `step` (lines 65-107): compute `gradV` and the
mean-field `gradPhi` from the current buffer, then overwrite particle i in place with
`xi + (-gradV - gradPhi) * dt + sigma * sqrt(dt) * noise`. -/
noncomputable def updateParticle {d : ℕ} (V : ConfinementPotential d)
    (Phi : InteractionPotential d) (sigma dt : ℝ) (N : ℕ) (noise : Fin N → Fin d → ℝ)
    (pos : Fin N → Fin d → ℝ) (i : Fin N) : Fin N → Fin d → ℝ :=
  Function.update pos i
    (fun k =>
      pos i k + (-V.gradient (pos i) k - interactionSum Phi N pos i k / (N : ℝ)) * dt +
        sigma * Real.sqrt dt * noise i k)

/-- The position part of `step`: the particle loop runs i = 0, 1, ..., N-1 over the one
shared position buffer, so each update is applied before the next particle's forces are
computed (the buffer is mutated in place through subarray views). -/
noncomputable def stepPositions {d : ℕ} (V : ConfinementPotential d)
    (Phi : InteractionPotential d) (sigma dt : ℝ) (N : ℕ) (noise : Fin N → Fin d → ℝ)
    (pos : Fin N → Fin d → ℝ) : Fin N → Fin d → ℝ :=
  (List.finRange N).foldl (updateParticle V Phi sigma dt N noise) pos

/-- Modelled from the spec: the snapshot-based step the specification demands
(every particle's forces are computed from one immutable snapshot of the pre-step
positions before any updated position is written).  Used only to compare the code's
in-place `step` against the specified behaviour. -/
noncomputable def stepSnapshot {d : ℕ} (V : ConfinementPotential d)
    (Phi : InteractionPotential d) (sigma dt : ℝ) (N : ℕ) (noise : Fin N → Fin d → ℝ)
    (pos : Fin N → Fin d → ℝ) : Fin N → Fin d → ℝ :=
  fun i k =>
    pos i k + (-V.gradient (pos i) k - interactionSum Phi N pos i k / (N : ℝ)) * dt +
      sigma * Real.sqrt dt * noise i k

/-- Full `step(state)`: draw all N*d noise values in one batch from the generator,
then run the per-particle update loop; returns the advanced generator state and the
updated position buffer. -/
noncomputable def stepSys {d : ℕ} (V : ConfinementPotential d) (Phi : InteractionPotential d)
    (sigma dt : ℝ) (N : ℕ) (st : Xs128 × (Fin N → Fin d → ℝ)) :
    Xs128 × (Fin N → Fin d → ℝ) :=
  ((randnFill (N * d) st.1).2,
    stepPositions V Phi sigma dt N
      (fun i k => (randnFill (N * d) st.1).1 (i.val * d + k.val)) st.2)

/-- Method initialize(std): positions are N*d successive standard-normal draws scaled by `std`. -/
noncomputable def initSystem (d : ℕ) (N : ℕ) (std : ℝ) (s : Xs128) :
    Xs128 × (Fin N → Fin d → ℝ) :=
  ((randnFill (N * d) s).2, fun i k => std * (randnFill (N * d) s).1 (i.val * d + k.val))

/-- The canonical call sequence of the determinism contract: construct a PRNG from the
seed, `initialize(std)`, then `step` repeatedly; entry n is the pair (generator state,
positions) after n steps. -/
noncomputable def trajectory (d : ℕ) (V : ConfinementPotential d) (Phi : InteractionPotential d)
    (sigma dt : ℝ) (N : ℕ) (seed : ℤ) (std : ℝ) : ℕ → Xs128 × (Fin N → Fin d → ℝ)
  | 0 => initSystem d N std (prngInit seed)
  | n + 1 => stepSys V Phi sigma dt N (trajectory d V Phi sigma dt N seed std n)

/-- Concrete confinement law for the in-place-update counterexample: harmonic, k = 1. -/
noncomputable def cexV : ConfinementPotential 1 := HarmonicPotential 1 1

/-- Concrete interaction law for the in-place-update counterexample: inverse distance,
gamma = 0.5. -/
noncomputable def cexPhi : InteractionPotential 1 := .radial (InverseInteraction 0.5)

/-- Concrete pre-step positions (N = 2, d = 1): particle 0 at 0, particle 1 at 1. -/
noncomputable def cexPos : Fin 2 → Fin 1 → ℝ := fun i _ => if i.val = 0 then 0 else 1

/-- Concrete noise buffer (irrelevant because sigma = 0 in the counterexample). -/
noncomputable def cexNoise : Fin 2 → Fin 1 → ℝ := fun _ _ => 0

/-- A concrete radial interaction used to instantiate pairwise-force statements. -/
noncomputable def cexRadial : RadialInteraction := ⟨fun r => r, fun r => r⟩

/-- Concrete position of one particle (d = 1) at the origin. -/
noncomputable def cexX : Fin 1 → ℝ := fun _ => 0

/-- Concrete position of one particle (d = 1) at coordinate 1. -/
noncomputable def cexY : Fin 1 → ℝ := fun _ => 1

/-! ### Generator lemmas -/

theorem xor_shiftRight_self_eq_zero {x k : ℕ} (hk : 0 < k) (h : x ^^^ (x >>> k) = 0) :
    x = 0 := by
  have hx : x = x >>> k := Nat.xor_eq_zero.mp h
  rw [Nat.shiftRight_eq_div_pow] at hx
  by_contra hne
  have hlt : x / 2 ^ k < x :=
    Nat.div_lt_self (Nat.pos_of_ne_zero hne) (Nat.one_lt_two_pow_iff.mpr (by omega))
  omega

theorem mul_coprime_mod_M32_eq_zero {t C : ℕ} (hC : Nat.Coprime M32 C) (ht : t < M32)
    (h : t * C % M32 = 0) : t = 0 := by
  have hdvd : M32 ∣ t * C := Nat.dvd_of_mod_eq_zero h
  exact Nat.eq_zero_of_dvd_of_lt (hC.dvd_of_dvd_mul_right hdvd) ht

theorem lor_eq_zero_parts {x y : ℕ} (h : x ||| y = 0) : x = 0 ∧ y = 0 := by
  constructor <;>
  · apply Nat.eq_of_testBit_eq
    intro i
    have hbit := congrArg (fun n => Nat.testBit n i) h
    simp only [Nat.testBit_or, Nat.zero_testBit, Bool.or_eq_false_iff] at hbit
    simp [hbit.1, hbit.2]

theorem mix32_eq_zero {z : ℤ} (h : mix32 z = 0) : z % (M32 : ℤ) = 0 := by
  have hM : M32 = 2 ^ 32 := by norm_num [M32]
  have h0 : (0 : ℤ) ≤ z % (M32 : ℤ) := Int.emod_nonneg z (by norm_num [M32])
  simp only [mix32] at h
  set x : ℕ := (z % (M32 : ℤ)).toNat with hxdef
  have hxM : x < M32 := by
    have h1 : z % (M32 : ℤ) < (M32 : ℤ) := Int.emod_lt_of_pos z (by norm_num [M32])
    omega
  set t1 := x ^^^ (x >>> 16) with ht1def
  set t2 := t1 * 0x21f0aaad % M32 with ht2def
  set t3 := t2 ^^^ (t2 >>> 15) with ht3def
  set t4 := t3 * 0x735a2d97 % M32 with ht4def
  have h4 : t4 = 0 := xor_shiftRight_self_eq_zero (by norm_num) h
  have ht2M : t2 < M32 := Nat.mod_lt _ (by norm_num [M32])
  have ht3M : t3 < M32 := by
    rw [hM]
    exact Nat.xor_lt_two_pow (hM ▸ ht2M)
      (lt_of_le_of_lt (Nat.shiftRight_eq_div_pow t2 15 ▸ Nat.div_le_self t2 (2 ^ 15))
        (hM ▸ ht2M))
  have h3 : t3 = 0 := mul_coprime_mod_M32_eq_zero (by norm_num [Nat.Coprime, M32]) ht3M h4
  have h2 : t2 = 0 := xor_shiftRight_self_eq_zero (by norm_num) h3
  have ht1M : t1 < M32 := by
    rw [hM]
    exact Nat.xor_lt_two_pow (hM ▸ hxM)
      (lt_of_le_of_lt (Nat.shiftRight_eq_div_pow x 16 ▸ Nat.div_le_self x (2 ^ 16))
        (hM ▸ hxM))
  have h1 : t1 = 0 := mul_coprime_mod_M32_eq_zero (by norm_num [Nat.Coprime, M32]) ht1M h2
  have hx0 : x = 0 := xor_shiftRight_self_eq_zero (by norm_num) h1
  omega

theorem prngInit_not_allZero (seed : ℤ) : ¬ allZero (prngInit seed) := by
  rintro ⟨h0, h1, -, -⟩
  have e0 : (seed + gamma32) % (M32 : ℤ) = 0 := mix32_eq_zero h0
  have e1 : (seed + 2 * gamma32) % (M32 : ℤ) = 0 := mix32_eq_zero h1
  have d0 : (M32 : ℤ) ∣ seed + gamma32 := Int.dvd_of_emod_eq_zero e0
  have d1 : (M32 : ℤ) ∣ seed + 2 * gamma32 := Int.dvd_of_emod_eq_zero e1
  have dγ : (M32 : ℤ) ∣ gamma32 := by
    have hsub := dvd_sub d1 d0
    have hγ : seed + 2 * gamma32 - (seed + gamma32) = gamma32 := by ring
    rwa [hγ] at hsub
  rw [show (M32 : ℤ) = 4294967296 by norm_num [M32],
    show gamma32 = 2654435769 by norm_num [gamma32]] at dγ
  omega

theorem nextState_not_allZero {s : Xs128} (hb : wordsBounded s) (h : ¬ allZero s) :
    ¬ allZero (nextState s) := by
  obtain ⟨hb0, hb1, hb2, hb3⟩ := hb
  rintro ⟨h0, h1, h2, h3⟩
  simp only [nextState] at h0 h1 h2 h3
  have hd1 : s.s3 ^^^ s.s1 = 0 := by
    obtain ⟨hleft, hright⟩ := lor_eq_zero_parts h3
    rw [Nat.shiftRight_eq_div_pow] at hright
    norm_num [M32] at hleft
    omega
  have hds : s.s3 = s.s1 := Nat.xor_eq_zero.mp hd1
  have hs0 : s.s0 = 0 := by rwa [hd1, Nat.xor_zero] at h0
  have hs12 : s.s1 = s.s2 := by
    rw [hs0, Nat.xor_zero] at h1
    exact Nat.xor_eq_zero.mp h1
  have ht : s.s2 = s.s1 * 2 ^ 9 % M32 := by
    rw [hs0, Nat.xor_zero] at h2
    exact Nat.xor_eq_zero.mp h2
  have hs1 : s.s1 = 0 := by
    have heq : s.s1 = s.s1 * 2 ^ 9 % M32 := hs12.trans ht
    have hq := Nat.div_add_mod (s.s1 * 2 ^ 9) M32
    have h511 : M32 ∣ s.s1 * 511 := by
      refine ⟨s.s1 * 2 ^ 9 / M32, ?_⟩
      norm_num [M32] at heq hq ⊢
      omega
    have hcop : Nat.Coprime M32 511 := by norm_num [Nat.Coprime, M32]
    exact Nat.eq_zero_of_dvd_of_lt (hcop.dvd_of_dvd_mul_right h511) hb1
  exact h ⟨hs0, hs1, by rw [← hs12]; exact hs1, by rw [hds]; exact hs1⟩

/-- Claim C8: the random source's internal four-word state is never all zero: for every
integer seed the SplitMix32-style construction produces a state with at least one
non-zero word, and the xoshiro128-style transition maps every non-all-zero 32-bit
state to a non-all-zero state, so the generator never stalls. -/
theorem prng_state_never_stalls :
    (∀ seed : ℤ, ¬ allZero (prngInit seed)) ∧
      ∀ s : Xs128, wordsBounded s → ¬ allZero s → ¬ allZero (nextState s) :=
  ⟨prngInit_not_allZero, fun _ hb h => nextState_not_allZero hb h⟩

/-- Witness for C8 at seed 42 and at the concrete state (1, 2, 3, 4). -/
theorem prng_state_never_stalls_witness :
    ¬ allZero (prngInit 42) ∧ ¬ allZero (nextState ⟨1, 2, 3, 4⟩) :=
  ⟨prng_state_never_stalls.1 42,
    prng_state_never_stalls.2 ⟨1, 2, 3, 4⟩ (by norm_num [wordsBounded, M32])
      (by simp [allZero])⟩

theorem randnFill_state (n : ℕ) : ∀ s : Xs128, (randnFill n s).2 = nextState^[2 * n] s := by
  induction n with
  | zero => intro s; rfl
  | succ m ih =>
    intro s
    show (randnFill m (randn s).2).2 = _
    rw [ih, show (randn s).2 = nextState (nextState s) from rfl,
      show 2 * (m + 1) = 2 * m + 2 by omega, Function.iterate_add_apply]
    rfl

/-- Claim C5: one `step` call draws its noise as one batch of standard-normal values from
the generator; each `randn` consumes exactly two uniform draws (two `next` transitions),
and one `step` advances the generator state by exactly 2*N*d transitions, independently of
the particle positions and of which V and Phi are bound. -/
theorem step_batch_noise_prng_advance :
    (∀ s : Xs128, (randn s).2 = nextState (nextState s)) ∧
      ∀ (d : ℕ) (V : ConfinementPotential d) (Phi : InteractionPotential d) (sigma dt : ℝ)
        (N : ℕ) (st : Xs128 × (Fin N → Fin d → ℝ)),
        (stepSys V Phi sigma dt N st).1 = nextState^[2 * (N * d)] st.1 :=
  ⟨fun _ => rfl, fun d _ _ _ _ N st => randnFill_state (N * d) st.1⟩

theorem nextOut_lt (s : Xs128) : nextOut s < M32 := Nat.mod_lt _ (by norm_num [M32])

/-- Claim C9: every uniform draw lies in [0, 1) and is an integer multiple of 2^-32;
the Box-Muller guard keeps the logarithm argument inside (0, 1), so `randn` always
produces a (finite) value bounded by sqrt(2 log 10^30). -/
theorem random_unit_interval_randn_finite :
    (∀ s : Xs128, 0 ≤ (randomPair s).1 ∧ (randomPair s).1 < 1 ∧
        ∃ k : ℕ, k < 2 ^ 32 ∧ (randomPair s).1 = (k : ℝ) / 2 ^ 32) ∧
      (∀ s : Xs128, 0 < (randomPair s).1 + 1e-30 ∧ (randomPair s).1 + 1e-30 < 1) ∧
      ∀ s : Xs128, |(randn s).1| ≤ Real.sqrt (2 * Real.log (10 ^ 30)) := by
  have hval : ∀ s : Xs128, (randomPair s).1 = (nextOut s : ℝ) / 4294967296 := fun s => rfl
  have hge : ∀ s : Xs128, 0 ≤ (randomPair s).1 := by
    intro s
    rw [hval]
    positivity
  have hle : ∀ s : Xs128, (randomPair s).1 ≤ 4294967295 / 4294967296 := by
    intro s
    rw [hval]
    have hk : (nextOut s : ℝ) ≤ 4294967295 := by
      have := nextOut_lt s
      have hnat : nextOut s ≤ 4294967295 := by norm_num [M32] at this; omega
      exact_mod_cast hnat
    linarith
  refine ⟨fun s => ⟨hge s, ?_, ⟨nextOut s, ?_, ?_⟩⟩, fun s => ⟨?_, ?_⟩, fun s => ?_⟩
  · have := hle s
    linarith
  · have := nextOut_lt s
    norm_num [M32] at this
    omega
  · rw [hval]
    norm_num
  · have := hge s
    norm_num
    linarith
  · have := hle s
    norm_num
    linarith
  · show |Real.sqrt (-2 * Real.log ((randomPair s).1 + 1e-30)) *
      Real.cos (2 * Real.pi * (randomPair (randomPair s).2).1)| ≤ _
    rw [abs_mul]
    have h1 : |Real.sqrt (-2 * Real.log ((randomPair s).1 + 1e-30))|
        = Real.sqrt (-2 * Real.log ((randomPair s).1 + 1e-30)) :=
      abs_of_nonneg (Real.sqrt_nonneg _)
    have hlog : Real.log (1e-30) ≤ Real.log ((randomPair s).1 + 1e-30) := by
      apply Real.log_le_log (by norm_num)
      have := hge s
      linarith
    have hloginv : Real.log (1e-30 : ℝ) = -Real.log (10 ^ 30) := by
      rw [show (1e-30 : ℝ) = (10 ^ 30)⁻¹ by norm_num, Real.log_inv]
    have h2 : Real.sqrt (-2 * Real.log ((randomPair s).1 + 1e-30))
        ≤ Real.sqrt (2 * Real.log (10 ^ 30)) := by
      apply Real.sqrt_le_sqrt
      rw [hloginv] at hlog
      linarith
    calc |Real.sqrt (-2 * Real.log ((randomPair s).1 + 1e-30))| *
          |Real.cos (2 * Real.pi * (randomPair (randomPair s).2).1)|
        ≤ |Real.sqrt (-2 * Real.log ((randomPair s).1 + 1e-30))| * 1 :=
          mul_le_mul_of_nonneg_left (Real.abs_cos_le_one _) (abs_nonneg _)
      _ = Real.sqrt (-2 * Real.log ((randomPair s).1 + 1e-30)) := by rw [mul_one, h1]
      _ ≤ Real.sqrt (2 * Real.log (10 ^ 30)) := h2

/-- Claim C2: for a fixed seed, dt, sigma, N, d, V and Phi, two independently constructed
particle systems given the same initialize-then-step call sequence produce identical
position sequences over any number of steps. -/
theorem deterministic_replay (d : ℕ) (V₁ V₂ : ConfinementPotential d)
    (Phi₁ Phi₂ : InteractionPotential d) (sigma₁ sigma₂ dt₁ dt₂ : ℝ) (N : ℕ)
    (seed₁ seed₂ : ℤ) (std₁ std₂ : ℝ) (hV : V₁ = V₂) (hPhi : Phi₁ = Phi₂)
    (hsigma : sigma₁ = sigma₂) (hdt : dt₁ = dt₂) (hseed : seed₁ = seed₂)
    (hstd : std₁ = std₂) :
    ∀ n : ℕ, trajectory d V₁ Phi₁ sigma₁ dt₁ N seed₁ std₁ n
      = trajectory d V₂ Phi₂ sigma₂ dt₂ N seed₂ std₂ n := by
  subst hV hPhi hsigma hdt hseed hstd
  intro n
  rfl

/-- Witness for C2: two runs with the parameters of the label demo (Model B), 3 steps. -/
theorem deterministic_replay_witness :
    trajectory 1 cexV cexPhi 0.15 0.02 2 42 1 3 = trajectory 1 cexV cexPhi 0.15 0.02 2 42 1 3 :=
  deterministic_replay 1 cexV cexV cexPhi cexPhi 0.15 0.15 0.02 0.02 2 42 42 1 1
    rfl rfl rfl rfl rfl rfl 3

/-- Claim C7: for every radial interaction and every pair of distinct positions, the
pairwise force contribution computed from the displacement x - y is the exact negation
of the contribution computed from y - x (Newton's third law before the 1/N averaging). -/
theorem radial_pair_force_antisymmetric (d : ℕ) (phi : RadialInteraction)
    (x y : Fin d → ℝ) (h : x ≠ y) (k : Fin d) :
    radialPairForce phi x y k = -radialPairForce phi y x k := by
  unfold radialPairForce
  have hsum : (∑ m, (y m - x m) * (y m - x m)) = ∑ m, (x m - y m) * (x m - y m) :=
    Finset.sum_congr rfl fun m _ => by ring
  rw [hsum]
  ring

/-- Witness for C7 at a concrete interaction and the pair (0), (1) in one dimension. -/
theorem radial_pair_force_antisymmetric_witness :
    radialPairForce cexRadial cexX cexY 0 = -radialPairForce cexRadial cexY cexX 0 :=
  radial_pair_force_antisymmetric 1 cexRadial cexX cexY
    (by
      intro hEq
      have := congrFun hEq 0
      norm_num [cexX, cexY] at this) 0

/-- Claim C10: with N = 1 the mean-field interaction term computed inside `step` is
identically zero (the self-pair is skipped), and the position update reduces to
x + (-grad V(x)) dt + sigma sqrt(dt) noise. -/
theorem single_particle_zero_interaction :
    (∀ (d : ℕ) (Phi : InteractionPotential d) (pos : Fin 1 → Fin d → ℝ) (i : Fin 1)
        (k : Fin d), interactionSum Phi 1 pos i k = 0) ∧
      ∀ (d : ℕ) (V : ConfinementPotential d) (Phi : InteractionPotential d) (sigma dt : ℝ)
        (st : Xs128 × (Fin 1 → Fin d → ℝ)) (i : Fin 1) (k : Fin d),
        (stepSys V Phi sigma dt 1 st).2 i k
          = st.2 i k + -V.gradient (st.2 i) k * dt
            + sigma * Real.sqrt dt * (randnFill (1 * d) st.1).1 (i.val * d + k.val) := by
  have hzero : ∀ (d : ℕ) (Phi : InteractionPotential d) (pos : Fin 1 → Fin d → ℝ) (i : Fin 1)
      (k : Fin d), interactionSum Phi 1 pos i k = 0 := by
    intro d Phi pos i k
    have hemp : (univ : Finset (Fin 1)).erase i = ∅ := by
      apply Finset.eq_empty_of_forall_not_mem
      intro j hj
      exact Finset.ne_of_mem_erase hj (Subsingleton.elim j i)
    cases Phi <;>
    · simp only [interactionSum]
      rw [hemp]
      exact Finset.sum_empty
  refine ⟨hzero, ?_⟩
  intro d V Phi sigma dt st i k
  have hi : i = 0 := Subsingleton.elim i 0
  subst hi
  have hstep : (stepSys V Phi sigma dt 1 st).2
      = updateParticle V Phi sigma dt 1
          (fun i k => (randnFill (1 * d) st.1).1 (i.val * d + k.val)) st.2 0 := rfl
  rw [hstep, updateParticle]
  simp only [Function.update_same]
  rw [hzero]
  norm_num

/-- Claim C4 (amended): the constructor performs no parameter validation; invalid
parameters such as N = 0 or dt ≤ 0 are accepted and yield a working integrator rather
than a construction-time error — with N = 0, `step` changes neither the generator state
nor the (empty) position buffer, a silently degenerate trajectory. -/
theorem construction_unvalidated_step_no_op :
    ∀ (d : ℕ) (V : ConfinementPotential d) (Phi : InteractionPotential d) (sigma dt : ℝ)
      (st : Xs128 × (Fin 0 → Fin d → ℝ)), stepSys V Phi sigma dt 0 st = st := by
  intro d V Phi sigma dt st
  simp [stepSys, stepPositions, randnFill, Nat.zero_mul, List.finRange_zero]

/-- Counterexample to C4: constructing with the invalid parameters N = 0, dt = -1 does not
fail; it produces a working integrator whose step is a silent no-op. -/
theorem construction_accepts_invalid_params :
    stepSys cexV cexPhi 1 (-1) 0 (prngInit 42, fun _ _ => (0 : ℝ))
      = (prngInit 42, fun _ _ => (0 : ℝ)) := by
  simp [stepSys, stepPositions, randnFill, Nat.zero_mul, List.finRange_zero]

/-- Claim C1 evaluated at a failing input (N = 2, d = 1, harmonic V with k = 1, inverse
interaction with gamma = 0.5, sigma = 0, dt = 1, particle 0 at 0 and particle 1 at 1):
the in-place `step` gives particle 1 the position 64/1089, whereas computing particle 1's
interaction from the pre-step snapshot gives 1/16 — so within one step the interaction
term for particle 1 reads particle 0's already-updated position, contradicting the claim. -/
theorem step_reads_updated_neighbor :
    stepPositions cexV cexPhi 0 1 2 cexNoise cexPos 1 0 = 64 / 1089 ∧
      stepSnapshot cexV cexPhi 0 1 2 cexNoise cexPos 1 0 = 1 / 16 ∧
      stepPositions cexV cexPhi 0 1 2 cexNoise cexPos 1 0
        ≠ stepSnapshot cexV cexPhi 0 1 2 cexNoise cexPos 1 0 := by
  have hEr0 : (univ : Finset (Fin 2)).erase 0 = {1} := by decide
  have hEr1 : (univ : Finset (Fin 2)).erase 1 = {0} := by decide
  have hI0 : interactionSum cexPhi 2 cexPos 0 0 = 1 / 8 := by
    simp only [cexPhi, interactionSum, hEr0, Finset.sum_singleton, radialPairForce,
      Fin.sum_univ_one, cexPos, InverseInteraction]
    norm_num [Real.sqrt_one, max_def]
  have hI1 : interactionSum cexPhi 2 cexPos 1 0 = -(1 / 8) := by
    simp only [cexPhi, interactionSum, hEr1, Finset.sum_singleton, radialPairForce,
      Fin.sum_univ_one, cexPos, InverseInteraction]
    norm_num [Real.sqrt_one, max_def]
  set p1 := updateParticle cexV cexPhi 0 1 2 cexNoise cexPos 0 with hp1def
  have hp11 : p1 1 0 = 1 := by
    rw [hp1def, updateParticle, Function.update_noteq (by decide : (1 : Fin 2) ≠ 0)]
    rfl
  have hp10 : p1 0 0 = -(1 / 16) := by
    rw [hp1def, updateParticle]
    simp only [Function.update_same]
    rw [hI0]
    norm_num [cexV, HarmonicPotential, cexPos, cexNoise]
  have hF : radialPairForce (InverseInteraction 0.5) (p1 1) (p1 0) 0 = -(128 / 1089) := by
    simp only [radialPairForce, Fin.sum_univ_one, InverseInteraction]
    rw [hp11, hp10]
    rw [show ((1 : ℝ) - -(1 / 16)) * (1 - -(1 / 16)) = (17 / 16) ^ 2 by norm_num,
      Real.sqrt_sq (by norm_num : (0 : ℝ) ≤ 17 / 16)]
    norm_num [max_def]
  have hIseq : interactionSum cexPhi 2 p1 1 0 = -(128 / 1089) := by
    simp only [cexPhi, interactionSum, hEr1, Finset.sum_singleton]
    exact hF
  have hstep : stepPositions cexV cexPhi 0 1 2 cexNoise cexPos
      = updateParticle cexV cexPhi 0 1 2 cexNoise p1 1 := rfl
  have hseq : stepPositions cexV cexPhi 0 1 2 cexNoise cexPos 1 0 = 64 / 1089 := by
    rw [hstep, updateParticle]
    simp only [Function.update_same]
    rw [hIseq]
    have hg : cexV.gradient (p1 1) 0 = p1 1 0 := by
      simp [cexV, HarmonicPotential]
    rw [hg, hp11]
    norm_num [cexNoise]
  have hsnap : stepSnapshot cexV cexPhi 0 1 2 cexNoise cexPos 1 0 = 1 / 16 := by
    rw [stepSnapshot, hI1]
    have hg : cexV.gradient (cexPos 1) 0 = cexPos 1 0 := by
      simp [cexV, HarmonicPotential]
    rw [hg]
    norm_num [cexPos, cexNoise]
  refine ⟨hseq, hsnap, ?_⟩
  rw [hseq, hsnap]
  norm_num

/-! ### Analytic-gradient lemmas -/

theorem sum_apply_update {d : ℕ} (g : Fin d → ℝ → ℝ) (x : Fin d → ℝ) (i : Fin d) (t : ℝ) :
    ∑ j, g j (Function.update x i t j) = g i t + ∑ j ∈ univ \ {i}, g j (x j) := by
  simp only [Function.apply_update (fun j y => g j y) x i t]
  exact Finset.sum_update_of_mem (mem_univ i) _ _

theorem hasDerivAt_sq_add (C p : ℝ) : HasDerivAt (fun t : ℝ => t * t + C) (2 * p) p := by
  have h := ((hasDerivAt_id p).mul (hasDerivAt_id p)).add_const C
  simp only [id_eq] at h
  convert h using 1
  ring

theorem harmonic_gradient_exact (d : ℕ) (k : ℝ) (x : Fin d → ℝ) (i : Fin d) :
    HasDerivAt (fun t => (HarmonicPotential d k).evaluate (Function.update x i t))
      ((HarmonicPotential d k).gradient x i) (x i) := by
  simp only [HarmonicPotential]
  have hrw : (fun t => 0.5 * k * ∑ j, Function.update x i t j * Function.update x i t j)
      = fun t => 0.5 * k * (t * t + ∑ j ∈ univ \ {i}, x j * x j) := by
    funext t
    rw [sum_apply_update (fun _ y => y * y) x i t]
  rw [hrw]
  have h := (hasDerivAt_sq_add (∑ j ∈ univ \ {i}, x j * x j) (x i)).const_mul (0.5 * k)
  convert h using 1
  ring

theorem quadratic_gradient_exact (d : ℕ) (a1 a2 : ℝ) (x : Fin d → ℝ) (i : Fin d)
    (h : 1e-10 < Real.sqrt (∑ j, x j * x j)) :
    HasDerivAt (fun t => (QuadraticConfinement d a1 a2).evaluate (Function.update x i t))
      ((QuadraticConfinement d a1 a2).gradient x i) (x i) := by
  simp only [QuadraticConfinement]
  have hS : (∑ j, x j * x j) = x i * x i + ∑ j ∈ univ \ {i}, x j * x j := by
    have hu := sum_apply_update (fun _ y => y * y) x i (x i)
    rwa [Function.update_eq_self] at hu
  have hS0 : (0 : ℝ) < x i * x i + ∑ j ∈ univ \ {i}, x j * x j := by
    have hpos : 0 < Real.sqrt (∑ j, x j * x j) := lt_trans (by norm_num) h
    have := Real.sqrt_pos.mp hpos
    rwa [hS] at this
  have hrw : (fun t => 0.5 * a1 *
          Real.sqrt (∑ j, Function.update x i t j * Function.update x i t j) +
        a2 * ∑ j, Function.update x i t j * Function.update x i t j)
      = fun t => 0.5 * a1 * Real.sqrt (t * t + ∑ j ∈ univ \ {i}, x j * x j) +
        a2 * (t * t + ∑ j ∈ univ \ {i}, x j * x j) := by
    funext t
    rw [sum_apply_update (fun _ y => y * y) x i t]
  rw [hrw]
  have hsq := ((hasDerivAt_sq_add (∑ j ∈ univ \ {i}, x j * x j) (x i)).sqrt
    (ne_of_gt hS0)).const_mul (0.5 * a1)
  have hquad := (hasDerivAt_sq_add (∑ j ∈ univ \ {i}, x j * x j) (x i)).const_mul a2
  have hadd := hsq.add hquad
  convert hadd using 1
  rw [max_eq_left (le_of_lt (hS ▸ h)), hS]
  have hsp : 0 < Real.sqrt (x i * x i + ∑ j ∈ univ \ {i}, x j * x j) := Real.sqrt_pos.mpr hS0
  field_simp
  ring

theorem doublewell_gradient_exact (d : ℕ) (x : Fin d → ℝ) (i : Fin d) :
    HasDerivAt (fun t => (DoubleWellPotential d).evaluate (Function.update x i t))
      ((DoubleWellPotential d).gradient x i) (x i) := by
  simp only [DoubleWellPotential]
  have hS : (∑ j, x j * x j) = x i * x i + ∑ j ∈ univ \ {i}, x j * x j := by
    have hu := sum_apply_update (fun _ y => y * y) x i (x i)
    rwa [Function.update_eq_self] at hu
  have hrw : (fun t =>
        0.25 * ((∑ j, Function.update x i t j * Function.update x i t j) - 1.0) ^ 2)
      = fun t => 0.25 * ((t * t + ∑ j ∈ univ \ {i}, x j * x j) - 1.0) ^ 2 := by
    funext t
    rw [sum_apply_update (fun _ y => y * y) x i t]
  rw [hrw]
  have h := (((hasDerivAt_sq_add (∑ j ∈ univ \ {i}, x j * x j) (x i)).sub_const 1.0).pow
    2).const_mul 0.25
  convert h using 1
  rw [hS]
  norm_num
  ring

theorem aniso_confinement_gradient_exact (d : ℕ) (a : Fin d → ℝ) (x : Fin d → ℝ) (i : Fin d) :
    HasDerivAt (fun t => (AnisotropicConfinement d a).evaluate (Function.update x i t))
      ((AnisotropicConfinement d a).gradient x i) (x i) := by
  simp only [AnisotropicConfinement]
  have hrw : (fun t => ∑ j, a j * (Function.update x i t j * Function.update x i t j))
      = fun t => a i * (t * t) + ∑ j ∈ univ \ {i}, a j * (x j * x j) := by
    funext t
    rw [sum_apply_update (fun j y => a j * (y * y)) x i t]
  rw [hrw]
  have h := (((hasDerivAt_id (x i)).mul (hasDerivAt_id (x i))).const_mul (a i)).add_const
    (∑ j ∈ univ \ {i}, a j * (x j * x j))
  simp only [id_eq] at h
  convert h using 1
  ring

theorem gaussian_gradient_exact (A sigma : ℝ) (hs : sigma ≠ 0) (r : ℝ) :
    HasDerivAt ((GaussianInteraction A sigma).evaluate)
      ((GaussianInteraction A sigma).gradient r) r := by
  simp only [GaussianInteraction]
  have hinner : HasDerivAt (fun y : ℝ => -y * y / (2 * (sigma * sigma)))
      ((-1 * r + -r * 1) / (2 * (sigma * sigma))) r := by
    have h := (((hasDerivAt_id r).neg).mul (hasDerivAt_id r)).div_const (2 * (sigma * sigma))
    simpa using h
  have h := (hinner.exp).const_mul A
  convert h using 1
  have hss : sigma * sigma ≠ 0 := mul_ne_zero hs hs
  field_simp
  ring

theorem real_tanh_hasDerivAt (x : ℝ) : HasDerivAt Real.tanh (1 / Real.cosh x ^ 2) x := by
  have h := (Real.hasDerivAt_sinh x).div (Real.hasDerivAt_cosh x)
    (ne_of_gt (Real.cosh_pos x))
  have hfun : (fun y => Real.sinh y / Real.cosh y) = Real.tanh := by
    funext y
    rw [Real.tanh_eq_sinh_div_cosh]
  rw [hfun] at h
  have hnum : Real.cosh x * Real.cosh x - Real.sinh x * Real.sinh x = 1 := by
    have := Real.cosh_sq_sub_sinh_sq x
    nlinarith [this]
  rwa [hnum] at h

theorem smoothInd_hasDerivAt (eps lo hi r : ℝ) :
    HasDerivAt (fun r => smoothInd eps r lo hi) (smoothIndGrad eps r lo hi) r := by
  have hin : ∀ c : ℝ, HasDerivAt (fun y : ℝ => (y - c) / eps) (1 / eps) r := by
    intro c
    have h := ((hasDerivAt_id r).sub_const c).div_const eps
    simpa using h
  have hlo := (real_tanh_hasDerivAt ((r - lo) / eps)).comp r (hin lo)
  have hhi := (real_tanh_hasDerivAt ((r - hi) / eps)).comp r (hin hi)
  have h := (hlo.sub hhi).const_mul 0.5
  simp only [Function.comp_def] at h
  unfold smoothInd smoothIndGrad
  convert h using 1
  ring

theorem piecewise_gradient_exact (b1 b2 eps : ℝ) (heps : eps ≠ 0) (r : ℝ) :
    HasDerivAt ((PiecewiseInteraction b1 b2 eps).evaluate)
      ((PiecewiseInteraction b1 b2 eps).gradient r) r := by
  simp only [PiecewiseInteraction]
  exact ((smoothInd_hasDerivAt eps 0.5 1.0 r).const_mul b1).add
    ((smoothInd_hasDerivAt eps 1.0 2.0 r).const_mul b2)

theorem inverse_gradient_exact (gamma r : ℝ) (h : r + 1.0 ≠ 0) :
    HasDerivAt ((InverseInteraction gamma).evaluate)
      ((InverseInteraction gamma).gradient r) r := by
  simp only [InverseInteraction]
  have hd : HasDerivAt (fun y : ℝ => y + 1.0) 1 r := (hasDerivAt_id r).add_const 1.0
  have hdiv := (hasDerivAt_const r gamma).div hd (by simpa using h)
  convert hdiv using 1
  rw [pow_two]
  ring

theorem morse_gradient_exact (D a r0 r : ℝ) :
    HasDerivAt ((MorsePotential D a r0).evaluate)
      ((MorsePotential D a r0).gradient r) r := by
  simp only [MorsePotential]
  have hinner : HasDerivAt (fun y : ℝ => -a * (y - r0)) (-a) r := by
    have h := ((hasDerivAt_id r).sub_const r0).const_mul (-a)
    simpa using h
  have he := hinner.exp
  have h := ((he.const_sub 1).pow 2).const_mul D
  convert h using 1
  ring

theorem lj_gradient_exact (eps sig rc fac r : ℝ) (h0 : 0 < ljRSafe sig fac)
    (h1 : ljRSafe sig fac < r) (h2 : r ≠ rc) :
    HasDerivAt ((LennardJonesPotential eps sig rc fac).evaluate)
      ((LennardJonesPotential eps sig rc fac).gradient r) r := by
  have hr0 : r ≠ 0 := ne_of_gt (lt_trans h0 h1)
  rcases lt_or_gt_of_ne h2 with hlt | hgt
  · -- below the cutoff: the evaluator agrees locally with the smooth shifted formula
    have hinv : HasDerivAt (fun y : ℝ => sig / y) ((0 * r - sig * 1) / r ^ 2) r :=
      (hasDerivAt_const r sig).div (hasDerivAt_id r) hr0
    have hu := hinv.pow 6
    have hF := (((hu.mul hu).sub hu).const_mul (4.0 * eps)).sub_const
      (ljShift eps sig rc)
    have hev : (LennardJonesPotential eps sig rc fac).evaluate
        =ᶠ[nhds r] fun y =>
          4.0 * eps * ((sig / y) ^ 6 * (sig / y) ^ 6 - (sig / y) ^ 6) -
            ljShift eps sig rc := by
      filter_upwards [Ioo_mem_nhds h1 hlt] with y hy
      simp only [LennardJonesPotential]
      rw [if_neg (not_le.mpr hy.2), max_eq_left (le_of_lt hy.1)]
    have hstep := hF.congr_of_eventuallyEq hev
    convert hstep using 1
    simp only [LennardJonesPotential]
    rw [if_neg (not_le.mpr hlt), max_eq_left (le_of_lt h1)]
    field_simp
    ring
  · -- beyond the cutoff: the evaluator is locally the zero function
    have hev : (LennardJonesPotential eps sig rc fac).evaluate
        =ᶠ[nhds r] fun _ => (0 : ℝ) := by
      filter_upwards [Ioi_mem_nhds hgt] with y hy
      simp only [LennardJonesPotential]
      rw [if_pos (le_of_lt hy)]
    have hgrad : (LennardJonesPotential eps sig rc fac).gradient r = 0 := by
      simp only [LennardJonesPotential]
      rw [if_pos (le_of_lt hgt)]
    rw [hgrad]
    exact (hasDerivAt_const r 0).congr_of_eventuallyEq hev

theorem aniso_gauss_gradient_exact (d : ℕ) (A : ℝ) (s : Fin d → ℝ) (z : Fin d → ℝ)
    (i : Fin d) (hs : s i ≠ 0) :
    HasDerivAt
      (fun t => (AnisotropicGaussianInteraction d A s).evaluate (Function.update z i t))
      ((AnisotropicGaussianInteraction d A s).gradient z i) (z i) := by
  simp only [AnisotropicGaussianInteraction, anisoGaussEval]
  have hrw : (fun t => A * Real.exp
        (-0.5 * ∑ j, Function.update z i t j * Function.update z i t j / (s j * s j)))
      = fun t => A * Real.exp (-0.5 *
          (t * t / (s i * s i) + ∑ j ∈ univ \ {i}, z j * z j / (s j * s j))) := by
    funext t
    rw [sum_apply_update (fun j y => y * y / (s j * s j)) z i t]
  rw [hrw]
  have hq : HasDerivAt
      (fun t : ℝ => -0.5 *
        (t * t / (s i * s i) + ∑ j ∈ univ \ {i}, z j * z j / (s j * s j)))
      (-0.5 * (2 * z i / (s i * s i))) (z i) := by
    have h := ((((hasDerivAt_id (z i)).mul (hasDerivAt_id (z i))).div_const
      (s i * s i)).add_const (∑ j ∈ univ \ {i}, z j * z j / (s j * s j))).const_mul (-0.5)
    simp only [id_eq] at h
    convert h using 1
    ring
  have h := (hq.exp).const_mul A
  convert h using 1
  have hS : (∑ j, z j * z j / (s j * s j))
      = z i * z i / (s i * s i) + ∑ j ∈ univ \ {i}, z j * z j / (s j * s j) := by
    have hu := sum_apply_update (fun j y => y * y / (s j * s j)) z i (z i)
    rwa [Function.update_eq_self] at hu
  rw [hS]
  ring

/-- Claim C3: for every potential class in the library (harmonic, quadratic-plus-linear,
double-well and anisotropic confinement; Gaussian, piecewise, inverse, Morse,
Lennard-Jones and anisotropic-Gaussian interaction) and every input in its domain, away
from the known singular points (clamped norms or distances, the LJ cutoff), the value
returned by `gradient` is the exact analytic derivative of `evaluate`. -/
theorem potential_gradients_exact :
    (∀ (d : ℕ) (k : ℝ) (x : Fin d → ℝ) (i : Fin d),
        HasDerivAt (fun t => (HarmonicPotential d k).evaluate (Function.update x i t))
          ((HarmonicPotential d k).gradient x i) (x i)) ∧
      (∀ (d : ℕ) (a1 a2 : ℝ) (x : Fin d → ℝ) (i : Fin d),
        1e-10 < Real.sqrt (∑ j, x j * x j) →
        HasDerivAt (fun t => (QuadraticConfinement d a1 a2).evaluate (Function.update x i t))
          ((QuadraticConfinement d a1 a2).gradient x i) (x i)) ∧
      (∀ (d : ℕ) (x : Fin d → ℝ) (i : Fin d),
        HasDerivAt (fun t => (DoubleWellPotential d).evaluate (Function.update x i t))
          ((DoubleWellPotential d).gradient x i) (x i)) ∧
      (∀ (d : ℕ) (a : Fin d → ℝ) (x : Fin d → ℝ) (i : Fin d),
        HasDerivAt (fun t => (AnisotropicConfinement d a).evaluate (Function.update x i t))
          ((AnisotropicConfinement d a).gradient x i) (x i)) ∧
      (∀ A sigma : ℝ, sigma ≠ 0 → ∀ r : ℝ,
        HasDerivAt ((GaussianInteraction A sigma).evaluate)
          ((GaussianInteraction A sigma).gradient r) r) ∧
      (∀ b1 b2 eps : ℝ, eps ≠ 0 → ∀ r : ℝ,
        HasDerivAt ((PiecewiseInteraction b1 b2 eps).evaluate)
          ((PiecewiseInteraction b1 b2 eps).gradient r) r) ∧
      (∀ gamma r : ℝ, r + 1.0 ≠ 0 →
        HasDerivAt ((InverseInteraction gamma).evaluate)
          ((InverseInteraction gamma).gradient r) r) ∧
      (∀ D a r0 r : ℝ,
        HasDerivAt ((MorsePotential D a r0).evaluate)
          ((MorsePotential D a r0).gradient r) r) ∧
      (∀ eps sig rc fac r : ℝ, 0 < ljRSafe sig fac → ljRSafe sig fac < r → r ≠ rc →
        HasDerivAt ((LennardJonesPotential eps sig rc fac).evaluate)
          ((LennardJonesPotential eps sig rc fac).gradient r) r) ∧
      ∀ (d : ℕ) (A : ℝ) (s z : Fin d → ℝ) (i : Fin d), s i ≠ 0 →
        HasDerivAt
          (fun t => (AnisotropicGaussianInteraction d A s).evaluate (Function.update z i t))
          ((AnisotropicGaussianInteraction d A s).gradient z i) (z i) :=
  ⟨harmonic_gradient_exact, quadratic_gradient_exact, doublewell_gradient_exact,
    aniso_confinement_gradient_exact,
    fun A sigma hs r => gaussian_gradient_exact A sigma hs r,
    fun b1 b2 eps heps r => piecewise_gradient_exact b1 b2 eps heps r,
    fun gamma r h => inverse_gradient_exact gamma r h,
    morse_gradient_exact,
    fun eps sig rc fac r h0 h1 h2 => lj_gradient_exact eps sig rc fac r h0 h1 h2,
    fun d A s z i hs => aniso_gauss_gradient_exact d A s z i hs⟩

/-- Witness for C3: every hypothesis-carrying conjunct instantiated at a concrete point
with its domain conditions discharged. -/
theorem potential_gradients_exact_witness :
    HasDerivAt (fun t => (QuadraticConfinement 1 (-1.0) 2.0).evaluate
        (Function.update cexY 0 t)) ((QuadraticConfinement 1 (-1.0) 2.0).gradient cexY 0)
      (cexY 0) ∧
      HasDerivAt ((GaussianInteraction 1.0 1.0).evaluate)
        ((GaussianInteraction 1.0 1.0).gradient 1) 1 ∧
      HasDerivAt ((PiecewiseInteraction (-3.0) 2.0 0.05).evaluate)
        ((PiecewiseInteraction (-3.0) 2.0 0.05).gradient 1) 1 ∧
      HasDerivAt ((InverseInteraction 0.5).evaluate) ((InverseInteraction 0.5).gradient 1) 1 ∧
      HasDerivAt ((LennardJonesPotential 0.5 0.5 2.5 0.7).evaluate)
        ((LennardJonesPotential 0.5 0.5 2.5 0.7).gradient 1) 1 ∧
      HasDerivAt
        (fun t => (AnisotropicGaussianInteraction 1 2.0 (fun _ => 0.5)).evaluate
          (Function.update cexY 0 t))
        ((AnisotropicGaussianInteraction 1 2.0 (fun _ => 0.5)).gradient cexY 0) (cexY 0) :=
  ⟨potential_gradients_exact.2.1 1 (-1.0) 2.0 cexY 0
      (by
        have hsum : (∑ j, cexY j * cexY j) = 1 := by simp [cexY, Fin.sum_univ_one]
        rw [hsum, Real.sqrt_one]
        norm_num),
    potential_gradients_exact.2.2.2.2.1 1.0 1.0 (by norm_num) 1,
    potential_gradients_exact.2.2.2.2.2.1 (-3.0) 2.0 0.05 (by norm_num) 1,
    potential_gradients_exact.2.2.2.2.2.2.1 0.5 1 (by norm_num),
    potential_gradients_exact.2.2.2.2.2.2.2.2.1 0.5 0.5 2.5 0.7 1 (by norm_num [ljRSafe])
      (by norm_num [ljRSafe]) (by norm_num),
    potential_gradients_exact.2.2.2.2.2.2.2.2.2 1 2.0 (fun _ => 0.5) cexY 0 (by norm_num)⟩

theorem lj_continuousAt_cutoff (eps sig rc fac : ℝ) (h0 : 0 < ljRSafe sig fac)
    (h1 : ljRSafe sig fac < rc) :
    ContinuousAt ((LennardJonesPotential eps sig rc fac).evaluate) rc := by
  have hrc0 : 0 < rc := lt_trans h0 h1
  set g : ℝ → ℝ := fun y =>
    4.0 * eps * ((sig / max y (ljRSafe sig fac)) ^ 6 * (sig / max y (ljRSafe sig fac)) ^ 6 -
      (sig / max y (ljRSafe sig fac)) ^ 6) - ljShift eps sig rc with hgdef
  have hmax : ContinuousAt (fun y : ℝ => max y (ljRSafe sig fac)) rc :=
    (continuous_id.max continuous_const).continuousAt
  have hne : max rc (ljRSafe sig fac) ≠ 0 := by
    rw [max_eq_left (le_of_lt h1)]
    exact ne_of_gt hrc0
  have hdiv : ContinuousAt (fun y => sig / max y (ljRSafe sig fac)) rc :=
    continuousAt_const.div hmax hne
  have hpow := hdiv.pow 6
  have hg : ContinuousAt g rc :=
    (continuousAt_const.mul ((hpow.mul hpow).sub hpow)).sub continuousAt_const
  have hg0 : g rc = 0 := by
    rw [hgdef]
    simp only
    rw [max_eq_left (le_of_lt h1), ljShift]
    ring
  have hevalrc : (LennardJonesPotential eps sig rc fac).evaluate rc = 0 := by
    simp only [LennardJonesPotential]
    rw [if_pos le_rfl]
  show Filter.Tendsto _ (nhds rc) (nhds ((LennardJonesPotential eps sig rc fac).evaluate rc))
  rw [hevalrc, ← nhds_left_sup_nhds_right rc, Filter.tendsto_sup]
  constructor
  · have hagree : ∀ y ∈ Set.Iic rc,
        (LennardJonesPotential eps sig rc fac).evaluate y = g y := by
      intro y hy
      rcases eq_or_lt_of_le (Set.mem_Iic.mp hy) with heq | hylt
      · rw [heq, hevalrc, hg0]
      · simp only [LennardJonesPotential, hgdef]
        rw [if_neg (not_le.mpr hylt)]
    have hgl : Filter.Tendsto g (nhdsWithin rc (Set.Iic rc)) (nhds (g rc)) :=
      hg.continuousWithinAt
    rw [hg0] at hgl
    exact hgl.congr'
      (Filter.eventuallyEq_of_mem self_mem_nhdsWithin fun y hy => (hagree y hy).symm)
  · have hagree : ∀ y ∈ Set.Ici rc,
        (LennardJonesPotential eps sig rc fac).evaluate y = 0 := by
      intro y hy
      simp only [LennardJonesPotential]
      rw [if_pos (Set.mem_Ici.mp hy)]
    exact Filter.Tendsto.congr'
      (Filter.eventuallyEq_of_mem self_mem_nhdsWithin fun y hy => (hagree y hy).symm)
      tendsto_const_nhds

/-- Claim C6: for every r at or beyond rCut, the truncated Lennard-Jones `evaluate` and
`gradient` return exactly 0; for rSafe ≤ r < rCut, `evaluate` returns the shifted formula
4 eps ((sigmaLJ/r)^12 - (sigmaLJ/r)^6) - shift, and `evaluate` is continuous at rCut
(its left limit there is 0). -/
theorem lj_cutoff_zero_and_continuous :
    (∀ eps sig rc fac r : ℝ, rc ≤ r →
        (LennardJonesPotential eps sig rc fac).evaluate r = 0 ∧
          (LennardJonesPotential eps sig rc fac).gradient r = 0) ∧
      (∀ eps sig rc fac r : ℝ, ljRSafe sig fac ≤ r → r < rc →
        (LennardJonesPotential eps sig rc fac).evaluate r
          = 4.0 * eps * ((sig / r) ^ 12 - (sig / r) ^ 6) - ljShift eps sig rc) ∧
      ∀ eps sig rc fac : ℝ, 0 < ljRSafe sig fac → ljRSafe sig fac < rc →
        ContinuousAt ((LennardJonesPotential eps sig rc fac).evaluate) rc := by
  refine ⟨?_, ?_, fun eps sig rc fac h0 h1 => lj_continuousAt_cutoff eps sig rc fac h0 h1⟩
  · intro eps sig rc fac r h
    constructor <;>
    · simp only [LennardJonesPotential]
      rw [if_pos h]
  · intro eps sig rc fac r hs hlt
    simp only [LennardJonesPotential]
    rw [if_neg (not_le.mpr hlt), max_eq_left hs]
    ring

/-- Witness for C6 at the default parameters (epsilon 0.5, sigmaLJ 0.5, rCut 2.5,
rSafeFactor 0.7), evaluated at r = 3, r = 2 and at the cutoff 2.5. -/
theorem lj_cutoff_zero_and_continuous_witness :
    ((LennardJonesPotential 0.5 0.5 2.5 0.7).evaluate 3 = 0 ∧
        (LennardJonesPotential 0.5 0.5 2.5 0.7).gradient 3 = 0) ∧
      (LennardJonesPotential 0.5 0.5 2.5 0.7).evaluate 2
        = 4.0 * 0.5 * ((0.5 / 2) ^ 12 - (0.5 / 2) ^ 6) - ljShift 0.5 0.5 2.5 ∧
      ContinuousAt ((LennardJonesPotential 0.5 0.5 2.5 0.7).evaluate) 2.5 :=
  ⟨lj_cutoff_zero_and_continuous.1 0.5 0.5 2.5 0.7 3 (by norm_num),
    lj_cutoff_zero_and_continuous.2.1 0.5 0.5 2.5 0.7 2 (by norm_num [ljRSafe])
      (by norm_num),
    lj_cutoff_zero_and_continuous.2.2 0.5 0.5 2.5 0.7 (by norm_num [ljRSafe])
      (by norm_num [ljRSafe])⟩

end IPS
